import Mathlib

/-!
Shallow embedding of the fast_matrix_market formatters
(`include/fast_matrix_market/formatters.hpp` and the variant with
`row_major_array_formatter`), the parallel read engine (`read_body_threads`)
and the pybind triplet parse handler, together with theorems checking the
natural-language specification against this code.

Conventions of the embedding:
* C++ iterator ranges become Lean lists; an iterator pair `(it, end)` becomes
  the list of the elements in `[it, end)`.
* `int64_t` quantities become `Int` (or `Nat` where the source guarantees
  non-negativity, e.g. matrix dimensions and list positions).
* the C++ `double` arithmetic of `csc_formatter` is modelled with exact
  rational arithmetic (`Rat`); concrete inputs used in theorems are chosen so
  that the corresponding IEEE double computations are exact.
* `value_to_string` and `int_to_string` (numeric emission, defined elsewhere
  in the library) are abstract parameters `vts` / `its` of the emission
  functions: every theorem holds for any rendering of individual numbers.
-/

/-- kSpace from the source: the single-space field separator. -/
def kSpace : String := " "

/-- kNewline from the source: the line terminator emitted by formatters. -/
def kNewline : String := "\n"

/-- write_options: the only field the formatters in scope read is
`chunk_size_values` (an `int64_t`). -/
structure write_options where
  chunk_size_values : Int

/-- Concatenation of a list of emitted chunk strings, in emission order. -/
def str_concat : List String → String
  | [] => ""
  | s :: rest => s ++ str_concat rest

/-! ## triplet_formatter (formatters.hpp lines 32-106)

State of the formatter: the remaining `[row_iter, row_end)`, the remaining
columns from `col_iter` on, and the remaining `[val_iter, val_end)`. -/

structure triplet_state (γ : Type) where
  rows : List Int
  cols : List Int
  vals : List γ

/-- Error message thrown by the `triplet_formatter` constructor. -/
def kLengthError : String := "Row, column, and value ranges must have equal length."

/-- triplet_formatter constructor (formatters.hpp lines 35-45): throws
`invalid_argument` when `row_end - row_begin != col_end - col_begin ||
(row_end - row_begin != val_end - val_begin && val_end != val_begin)`. -/
def triplet_formatter_mk {γ : Type} (rows cols : List Int) (vals : List γ) :
    Except String (triplet_state γ) :=
  if rows.length ≠ cols.length ∨ (rows.length ≠ vals.length ∧ vals.length ≠ 0) then
    Except.error kLengthError
  else
    Except.ok ⟨rows, cols, vals⟩

/-- triplet_formatter::has_next (formatters.hpp lines 47-49):
`row_iter != row_end`. -/
def triplet_has_next {γ : Type} (s : triplet_state γ) : Bool :=
  !s.rows.isEmpty

/-- triplet_formatter::chunk::operator() (formatters.hpp lines 60-78), with
`COLUMN_IS_VALUE = false` so that `column_to_str` is `int_to_string (c + 1)`.
The loop runs while `row_iter != row_end`, incrementing the column iterator in
lock-step and consuming a value only while `val_iter != val_end`.
(`its` stands for `int_to_string`, `vts` for `value_to_string`.) -/
def triplet_chunk_str {γ : Type} (its : Int → String) (vts : γ → String) :
    List Int → List Int → List γ → String
  | r :: rs, c :: cs, v :: vs =>
      its (r + 1) ++ kSpace ++ its (c + 1) ++ kSpace ++ vts v ++ kNewline ++
        triplet_chunk_str its vts rs cs vs
  | r :: rs, c :: cs, [] =>
      its (r + 1) ++ kSpace ++ its (c + 1) ++ kNewline ++
        triplet_chunk_str its vts rs cs []
  | _, _, _ => ""

/-- triplet_formatter::next_chunk (formatters.hpp lines 85-100):
`chunk_size = min(options.chunk_size_values, row_end - row_iter)`; the produced
chunk captures `[row_iter, row_iter + chunk_size)` of each range (the value
range only when it is non-empty, matching
`val_chunk_end = (val_iter != val_end) ? val_iter + chunk_size : val_end`),
and the iterators advance past the chunk.  On a list embedding `take`/`drop`
express exactly this advance (for the empty value range both are no-ops,
matching the conditional in the source). -/
def triplet_next_chunk {γ : Type} (options : write_options) (s : triplet_state γ) :
    triplet_state γ × triplet_state γ :=
  let chunk_size : Nat := (min options.chunk_size_values (s.rows.length : Int)).toNat
  (⟨s.rows.take chunk_size, s.cols, s.vals.take chunk_size⟩,
   ⟨s.rows.drop chunk_size, s.cols.drop chunk_size, s.vals.drop chunk_size⟩)

/-- The drain loop `while has_next(): next_chunk(options)` of the write engine,
collecting each produced chunk's emitted string, with explicit fuel
(`fuel ≥ s.rows.length` suffices when `chunk_size_values ≥ 1`). -/
def triplet_chunks {γ : Type} (its : Int → String) (vts : γ → String)
    (options : write_options) : Nat → triplet_state γ → List String
  | 0, _ => []
  | fuel + 1, s =>
      if s.rows.isEmpty then []
      else
        let p := triplet_next_chunk options s
        triplet_chunk_str its vts p.1.rows p.1.cols p.1.vals ::
          triplet_chunks its vts options fuel p.2

/-- Number of `next_chunk` calls performed by the drain loop. -/
def triplet_chunk_count {γ : Type} (options : write_options) :
    Nat → triplet_state γ → Nat
  | 0, _ => 0
  | fuel + 1, s =>
      if s.rows.isEmpty then 0
      else 1 + triplet_chunk_count options fuel (triplet_next_chunk options s).2

/-- Final formatter state after the drain loop. -/
def triplet_drain_state {γ : Type} (options : write_options) :
    Nat → triplet_state γ → triplet_state γ
  | 0, s => s
  | fuel + 1, s =>
      if s.rows.isEmpty then s
      else triplet_drain_state options fuel (triplet_next_chunk options s).2

/-- The specification's description of the triplet body: one line per record,
`row+1 SPACE col+1` followed by ` value` exactly when the value range is
non-empty, each line terminated by a newline, records in input order. -/
def spec_triplet_line {γ : Type} (its : Int → String) (vts : γ → String)
    (r c : Int) (v : Option γ) : String :=
  its (r + 1) ++ kSpace ++ its (c + 1) ++
    (match v with
     | some v => kSpace ++ vts v
     | none => "") ++ kNewline

/-- The specification's whole-body text: concatenation over records, in input
order, of `spec_triplet_line`. -/
def spec_triplet_body {γ : Type} (its : Int → String) (vts : γ → String) :
    List Int → List Int → List γ → String
  | r :: rs, c :: cs, v :: vs =>
      spec_triplet_line its vts r c (some v) ++ spec_triplet_body its vts rs cs vs
  | r :: rs, c :: cs, [] =>
      spec_triplet_line its vts r c none ++ spec_triplet_body its vts rs cs []
  | _, _, _ => ""

/-! ## csc_formatter (formatters.hpp lines 111-217)

Only the partitioning of `next_chunk` is claimed; we embed the column-range
bookkeeping: `ptr_len = ptr_end - ptr_begin`, `nnz = ind_end - ind_begin`, and
`ptr_pos = ptr_iter - ptr_begin`. -/

structure csc_state where
  ptr_len : Nat
  nnz : Nat
  ptr_pos : Nat

/-- The C-style cast `(int64_t)(double)`: truncation toward zero, modelled on
exact rationals. -/
def cast_int64 (q : Rat) : Int :=
  if q < 0 then Int.ceil q else Int.floor q

/-- csc_formatter constructor (formatters.hpp lines 126-128):
`nnz_per_column = (double)nnz / num_columns` where
`num_columns = ptr_end - ptr_iter` at construction. -/
def nnz_per_column (s : csc_state) : Rat :=
  (s.nnz : Rat) / (s.ptr_len : Rat)

/-- csc_formatter::has_next (formatters.hpp lines 131-133):
`ptr_iter != ptr_end`. -/
def csc_has_next (s : csc_state) : Bool :=
  s.ptr_pos ≠ s.ptr_len

/-- csc_formatter::next_chunk (formatters.hpp lines 195-209): the number of
columns covered by the produced work unit,
`num_columns = (int64_t)(nnz_per_column * (double)options.chunk_size_values + 1)`
capped by `ptr_end - ptr_iter`. -/
def csc_next_chunk_cols (s : csc_state) (options : write_options) : Nat :=
  (min (cast_int64 (nnz_per_column s * (options.chunk_size_values : Rat) + 1))
    ((s.ptr_len - s.ptr_pos : Nat) : Int)).toNat

/-- State advance of csc_formatter::next_chunk: `ptr_iter = ptr_chunk_end`. -/
def csc_next_chunk_state (s : csc_state) (options : write_options) : csc_state :=
  { s with ptr_pos := s.ptr_pos + csc_next_chunk_cols s options }

/-- Column counts of the successive work units produced by the drain loop
`while has_next(): next_chunk(options)`, with explicit fuel. -/
def csc_chunk_sizes (options : write_options) : Nat → csc_state → List Nat
  | 0, _ => []
  | fuel + 1, s =>
      if s.ptr_pos = s.ptr_len then []
      else csc_next_chunk_cols s options ::
        csc_chunk_sizes options fuel (csc_next_chunk_state s options)

/-- The specification's partitioning formula for csc_formatter:
each work unit covers `ceil(chunk_size_values / nnz_per_column)` columns,
capped by the number of columns remaining. -/
def spec_csc_chunk_cols (s : csc_state) (options : write_options) : Nat :=
  (min (Int.ceil ((options.chunk_size_values : Rat) / nnz_per_column s))
    ((s.ptr_len - s.ptr_pos : Nat) : Int)).toNat

/-! ## array_formatter (formatters.hpp lines 222-271) and
row_major_array_formatter (part_000 lines 222-261)

Dimensions `nrows`, `ncols` are `int64_t` in the source but only ever hold
non-negative matrix dimensions; they are embedded as `Nat`.  List indexing
uses `getD` with an explicit default `d`, never reached under the length
hypotheses of the theorems. -/

inductive storage_order where
  | row_major
  | col_major
deriving DecidableEq

/-- array_formatter::chunk::operator() (formatters.hpp lines 237-254): the
sequence of source elements the chunk passes to `value_to_string`, one per
`row` in `0..nrows`, at offset `row * ncols + cur_col` for a row-major source
and `cur_col * nrows + row` for a column-major source. -/
def array_chunk_values {α : Type} (values : List α) (d : α)
    (order : storage_order) (nrows ncols cur_col : Nat) : List α :=
  (List.range nrows).map fun row =>
    values.getD (if order = storage_order.row_major
                 then row * ncols + cur_col
                 else cur_col * nrows + row) d

/-- array_formatter's chunk text: the loop appends
`value_to_string(*(values + offset))` then `kNewline` for each row. -/
def array_chunk_str {α : Type} (vts : α → String) (values : List α) (d : α)
    (order : storage_order) (nrows ncols cur_col : Nat) : String :=
  str_concat ((array_chunk_values values d order nrows ncols cur_col).map
    fun v => vts v ++ kNewline)

/-- Drain of array_formatter (`has_next` is `cur_col != ncols`, `next_chunk`
returns the chunk for `cur_col` and increments it): the emitted value
sequence, starting from column `cur_col` with `fuel = ncols - cur_col`. -/
def array_formatter_values {α : Type} (values : List α) (d : α)
    (order : storage_order) (nrows ncols : Nat) : Nat → Nat → List α
  | 0, _ => []
  | fuel + 1, cur_col =>
      if cur_col = ncols then []
      else array_chunk_values values d order nrows ncols cur_col ++
        array_formatter_values values d order nrows ncols fuel (cur_col + 1)

/-- Drain of array_formatter: the emitted text. -/
def array_formatter_str {α : Type} (vts : α → String) (values : List α) (d : α)
    (order : storage_order) (nrows ncols : Nat) : Nat → Nat → String
  | 0, _ => ""
  | fuel + 1, cur_col =>
      if cur_col = ncols then ""
      else array_chunk_str vts values d order nrows ncols cur_col ++
        array_formatter_str vts values d order nrows ncols fuel (cur_col + 1)

/-- row_major_array_formatter::chunk::operator() (part_000 lines 236-246): the
chunk for `cur_row` passes `values[cur_row * ncols + i]` for `i` in
`0..ncols` to `value_to_string`.  The constructor sets
`ncols = values.size() / nrows`. -/
def row_major_chunk_values {α : Type} (values : List α) (d : α)
    (ncols cur_row : Nat) : List α :=
  (List.range ncols).map fun i => values.getD (cur_row * ncols + i) d

/-- Drain of row_major_array_formatter (`has_next` is `cur_row != nrows`,
`next_chunk` returns the chunk for `cur_row` and increments it): the emitted
value sequence from row `cur_row` with `fuel = nrows - cur_row`. -/
def row_major_formatter_values {α : Type} (values : List α) (d : α)
    (nrows ncols : Nat) : Nat → Nat → List α
  | 0, _ => []
  | fuel + 1, cur_row =>
      if cur_row = nrows then []
      else row_major_chunk_values values d ncols cur_row ++
        row_major_formatter_values values d nrows ncols fuel (cur_row + 1)

/-- Drain of row_major_array_formatter starting at row 0, with
`ncols = values.length / nrows` as computed by the constructor. -/
def row_major_formatter_all {α : Type} (values : List α) (d : α)
    (nrows : Nat) : List α :=
  row_major_formatter_values values d nrows (values.length / nrows) nrows 0

/-- row_major_array_formatter's chunk text: the loop appends
`value_to_string(values[(cur_row * ncols) + i])` then `kNewline` for each
`i` in `0..ncols`. -/
def row_major_chunk_str {α : Type} (vts : α → String) (values : List α) (d : α)
    (ncols cur_row : Nat) : String :=
  str_concat ((row_major_chunk_values values d ncols cur_row).map
    fun v => vts v ++ kNewline)

/-- Drain of row_major_array_formatter: the emitted text. -/
def row_major_formatter_str {α : Type} (vts : α → String) (values : List α)
    (d : α) (nrows ncols : Nat) : Nat → Nat → String
  | 0, _ => ""
  | fuel + 1, cur_row =>
      if cur_row = nrows then ""
      else row_major_chunk_str vts values d ncols cur_row ++
        row_major_formatter_str vts values d nrows ncols fuel (cur_row + 1)

/-- The specification's column-major body order: element `(row, col)` of the
source matrix with `col` outermost. -/
def spec_col_major {α : Type} (M : Nat → Nat → α) (nrows ncols : Nat) : List α :=
  (List.range ncols).flatMap fun c => (List.range nrows).map fun r => M r c

/-- Element `(r, c)` of the source matrix of an array_formatter, as a function
of its storage order: `values[r * ncols + c]` for a row-major source,
`values[c * nrows + r]` for a column-major one. -/
def array_source_elem {α : Type} (values : List α) (d : α)
    (order : storage_order) (nrows ncols : Nat) (r c : Nat) : α :=
  values.getD (if order = storage_order.row_major
               then r * ncols + c
               else c * nrows + r) d

/-! ## triplet_numpy_parse_handler (part_000 lines 549-579)

The three output arrays `rows(i)`, `cols(i)`, `values(i)` are modelled as
total functions on `Int` (the `int64_t` index space); `handle` overwrites the
cell at `offset` and increments `offset`. -/

structure triplet_numpy_handler (IT VT : Type) where
  rows : Int → IT
  cols : Int → IT
  values : Int → VT
  offset : Int

/-- triplet_numpy_parse_handler::handle (part_000 lines 561-567):
`rows(offset) = row; cols(offset) = col; values(offset) = value; ++offset`. -/
def tnph_handle {IT VT : Type} (h : triplet_numpy_handler IT VT)
    (row col : IT) (value : VT) : triplet_numpy_handler IT VT :=
  { rows := fun i => if i = h.offset then row else h.rows i
    cols := fun i => if i = h.offset then col else h.cols i
    values := fun i => if i = h.offset then value else h.values i
    offset := h.offset + 1 }

/-- triplet_numpy_parse_handler::get_chunk_handler (part_000 lines 569-571):
a handler over the same arrays positioned at `offset_from_begin`. -/
def tnph_get_chunk_handler {IT VT : Type} (h : triplet_numpy_handler IT VT)
    (offset_from_begin : Int) : triplet_numpy_handler IT VT :=
  { h with offset := offset_from_begin }

/-- A sequence of `handle` calls on a chunk handler, one per parsed record
`(row, col, value)`, in intra-chunk order. -/
def tnph_run {IT VT : Type} (h : triplet_numpy_handler IT VT) :
    List (IT × IT × VT) → triplet_numpy_handler IT VT
  | [] => h
  | (r, c, v) :: rest => tnph_run (tnph_handle h r c v) rest

/-! ## read_body_threads (part_000 lines 287-379)

The engine is embedded generically in the chunk type `C` (the C++ chunk is a
`std::string`; the loop never inspects its contents).  `cl` is the line-count
function evaluated by the `count_chunk_lines` tasks.  The thread pool's
nondeterministic readiness test
`pool.get_tasks_total() < inflight_count && is_ready(line_count_futures.front())`
is modelled by an arbitrary Boolean oracle trace: each loop iteration either
dispatches the front chunk (oracle `true`) or yields (`false`).  The FIFO
future queue stores each chunk with the line count its task will deliver. -/

structure engine_state (C : Type) where
  stream : List C
  queue : List (C × Int)
  line_num : Int
  assigned : List (C × Int)

/-- The in-flight cap (part_000 line 320):
`inflight_count = 10 * pool.get_thread_count()`. -/
def inflight_count (num_threads : Nat) : Nat := 10 * num_threads

/-- The seeding loop (part_000 lines 323-328): read a chunk and enqueue its
line-count future while `seed_i < inflight_count && instream.good()`. -/
def seed_loop {C : Type} (cl : C → Int) : Nat → List C → List (C × Int) × List C
  | 0, stream => ([], stream)
  | _ + 1, [] => ([], [])
  | n + 1, chunk :: rest =>
      let r := seed_loop cl n rest
      ((chunk, cl chunk) :: r.1, r.2)

/-- State after the seeding loop: `line_num` starts at
`header.header_line_count` (part_000 line 312), no chunk dispatched yet. -/
def engine_init {C : Type} (cl : C → Int) (cap : Nat) (header_line_count : Int)
    (stream : List C) : engine_state C :=
  let r := seed_loop cl cap stream
  ⟨r.2, r.1, header_line_count, []⟩

/-- One dispatching iteration of the main loop (part_000 lines 332-369): read
a replacement chunk if `instream.good()` and push its line-count future; pop
the front future; assign `chunk_line_start = line_num`;
`line_num += chunk_line_count`; submit the parse task for the chunk (recorded
in `assigned` in dispatch order, paired with its `chunk_line_start`).
Pushing to the back and popping the front commute, so performing the push
first (as the source does) is represented by the same state. -/
def engine_step {C : Type} (cl : C → Int) (s : engine_state C) : engine_state C :=
  match s.queue with
  | [] => s
  | (chunk, cnt) :: qrest =>
      let pushed : List (C × Int) × List C :=
        match s.stream with
        | [] => (qrest, [])
        | c2 :: rest => (qrest ++ [(c2, cl c2)], rest)
      { stream := pushed.2
        queue := pushed.1
        line_num := s.line_num + cnt
        assigned := s.assigned ++ [(chunk, s.line_num)] }

/-- The main loop `while (!line_count_futures.empty())` driven by an oracle
trace: `true` is an iteration whose readiness test passes (dispatch), `false`
an iteration that yields.  The loop exits when the queue empties. -/
def engine_run {C : Type} (cl : C → Int) : List Bool → engine_state C → engine_state C
  | [], s => s
  | b :: tr, s =>
      if s.queue.isEmpty then s
      else engine_run cl tr (if b then engine_step cl s else s)

/-- The offsets handed to `handler.get_chunk_handler` (part_000 lines
351-352): `body_line = chunk_line_start - header.header_line_count`, in
dispatch order. -/
def dispatched_offsets {C : Type} (s : engine_state C)
    (header_line_count : Int) : List Int :=
  s.assigned.map fun p => p.2 - header_line_count

/-- Array-format dispatch (part_000 lines 353-356): from the chunk's first
body line ordinal the engine computes
`row = body_line % header.ncols; col = body_line / header.ncols`.
(`nrows` does not appear in this computation.) -/
def array_dispatch_start (body_line ncols : Int) : Int × Int :=
  (body_line % ncols, body_line / ncols)

/-- Modelled from the spec: the chunk-parser contract for array files (spec
section 4.5) computes the starting position of the record with ordinal `ord`
as `(row, col) = (ord % nrows, ord / nrows)`, the column-major position in an
`nrows`-by-`ncols` matrix. -/
def spec_array_start (ord nrows : Int) : Int × Int :=
  (ord % nrows, ord / nrows)

/-- Modelled from the spec: the line counter `count_lines` (component C4 of
the spec, not under src/) returns "the count of newline-terminated lines plus
one if the chunk ends without a trailing newline and contains content";
blank lines are counted. -/
def count_lines_spec (chunk : String) : Int :=
  let n : Int := (chunk.data.count '\n' : Nat)
  if chunk.data ≠ [] ∧ chunk.data.getLast? ≠ some '\n' then n + 1 else n

/-- Split a character sequence at each newline (the newline belongs to no
line; a trailing newline yields a final empty line). -/
def chunk_lines : List Char → List (List Char)
  | [] => [[]]
  | c :: rest =>
      if c = '\n' then [] :: chunk_lines rest
      else
        match chunk_lines rest with
        | l :: ls => (c :: l) :: ls
        | [] => [[c]]

/-- Modelled from the spec: the number of records in a chunk.  Parsers skip
blank (whitespace-only) lines (spec sections 4.3 and 4.4), so the records of a
chunk are its lines containing a non-whitespace character. -/
def count_records_spec (chunk : String) : Int :=
  ((chunk_lines chunk.data).countP
    (fun l => l.any fun c => !c.isWhitespace) : Nat)

/-- Invariant of the read-engine main loop relating a reachable state to the
original chunk stream: dispatched chunks, queued chunks and the unread stream
partition the stream in order; queued line counts are those the count tasks
deliver; line_num and the recorded chunk_line_start values are the header
line count plus prefix sums of dispatched line counts; the queue only empties
once the stream is exhausted. -/
def engine_inv {C : Type} (cl : C → Int) (hl : Int) (orig : List C)
    (s : engine_state C) : Prop :=
  s.assigned.map Prod.fst ++ s.queue.map Prod.fst ++ s.stream = orig ∧
  (∀ p ∈ s.queue, p.2 = cl p.1) ∧
  s.line_num = hl + ((s.assigned.map Prod.fst).map cl).sum ∧
  (∀ i : Nat, ∀ h : i < s.assigned.length,
    (s.assigned.get ⟨i, h⟩).2 =
      hl + (((s.assigned.map Prod.fst).take i).map cl).sum) ∧
  (s.queue = [] → s.stream = [])

/-! ## Pool-task refinement of the read engine

The backpressure contract speaks about the measure "pending line-count
futures plus queued pool tasks", so this refinement of the engine also
tracks the thread pool's task accounting.  Each queue entry carries a flag
recording whether its line-count task has finished (its future is ready);
`parse_tasks` counts parse tasks submitted and not yet finished.
Worker-side completions and main-loop iterations are interleaved
nondeterministically by a trace of events. -/

structure engine_pool_state (C : Type) where
  stream : List C
  queue : List (C × Int × Bool)
  parse_tasks : Nat
  line_num : Int
  assigned : List (C × Int)

/-- Events of the refined engine: a worker finishes the line-count task of
the i-th queued future, a worker finishes a parse task, or the main loop
performs one iteration (dispatching when the source's readiness test
`pool.get_tasks_total() < inflight_count && is_ready(front)` holds, else
yielding). -/
inductive engine_event where
  | count_done (i : Nat)
  | parse_done
  | loop_iter

/-- Mark the i-th queued line-count task as finished (its future ready). -/
def mark_count_done {C : Type} : Nat → List (C × Int × Bool) → List (C × Int × Bool)
  | _, [] => []
  | 0, (c, n, _) :: rest => (c, n, true) :: rest
  | i + 1, e :: rest => e :: mark_count_done i rest

/-- `pool.get_tasks_total()`: tasks submitted to the pool and not yet
finished — the unfinished line-count tasks plus the unfinished parse tasks. -/
def pool_tasks_total {C : Type} (s : engine_pool_state C) : Nat :=
  s.queue.countP (fun p => !p.2.2) + s.parse_tasks

/-- The claim's in-flight measure: pending line-count futures plus the
pool's pending tasks. -/
def inflight_measure {C : Type} (s : engine_pool_state C) : Nat :=
  s.queue.length + pool_tasks_total s

/-- One event of the refined engine.  A dispatching iteration (part_000
lines 332-369) requires the source's guard `pool_tasks_total < cap` and the
front future ready; it then reads a replacement chunk if the stream is good
(submitting its line-count task, initially unfinished), pops the front
future, submits the parse task, and assigns `chunk_line_start`. -/
def engine_pool_step {C : Type} (cl : C → Int) (cap : Nat)
    (s : engine_pool_state C) : engine_event → engine_pool_state C
  | engine_event.count_done i => { s with queue := mark_count_done i s.queue }
  | engine_event.parse_done => { s with parse_tasks := s.parse_tasks - 1 }
  | engine_event.loop_iter =>
      match s.queue with
      | [] => s
      | (chunk, cnt, ready) :: qrest =>
          if pool_tasks_total s < cap ∧ ready = true then
            match s.stream with
            | [] =>
                { stream := [], queue := qrest,
                  parse_tasks := s.parse_tasks + 1,
                  line_num := s.line_num + cnt,
                  assigned := s.assigned ++ [(chunk, s.line_num)] }
            | c2 :: rest =>
                { stream := rest, queue := qrest ++ [(c2, cl c2, false)],
                  parse_tasks := s.parse_tasks + 1,
                  line_num := s.line_num + cnt,
                  assigned := s.assigned ++ [(chunk, s.line_num)] }
          else s

/-- Run of the refined engine over an event trace. -/
def engine_pool_run {C : Type} (cl : C → Int) (cap : Nat) :
    List engine_event → engine_pool_state C → engine_pool_state C
  | [], s => s
  | e :: tr, s => engine_pool_run cl cap tr (engine_pool_step cl cap s e)

/-- State right after the seeding loop (part_000 lines 323-328): up to cap
chunks read, each with its line-count task submitted and not yet finished
(worker completions during seeding are the later count_done events). -/
def engine_pool_init {C : Type} (cl : C → Int) (cap : Nat)
    (header_line_count : Int) (stream : List C) : engine_pool_state C :=
  let r := seed_loop cl cap stream
  ⟨r.2, r.1.map (fun p => (p.1, p.2, false)), 0, header_line_count, []⟩

/-! ## Theorems -/

/-- Concatenation distributes over `str_concat`. -/
theorem str_concat_append (a b : List String) :
    str_concat (a ++ b) = str_concat a ++ str_concat b := by
  induction a with
  | nil => simp [str_concat]
  | cons s rest ih => simp [str_concat, ih, String.append_assoc]

/-- Splitting the input ranges after `n` records splits the emitted text. -/
theorem triplet_chunk_str_split {γ : Type} (its : Int → String) (vts : γ → String)
    (n : Nat) (rows cols : List Int) (vals : List γ) :
    triplet_chunk_str its vts (rows.take n) cols (vals.take n) ++
      triplet_chunk_str its vts (rows.drop n) (cols.drop n) (vals.drop n) =
    triplet_chunk_str its vts rows cols vals := by
  induction n generalizing rows cols vals with
  | zero => simp [triplet_chunk_str]
  | succ n ih =>
    match rows, cols, vals with
    | [], _, _ => simp [triplet_chunk_str]
    | _ :: _, [], _ => simp [triplet_chunk_str]
    | r :: rs, c :: cs, [] =>
        simp only [List.take_succ_cons, List.drop_succ_cons, List.take_nil,
          List.drop_nil, triplet_chunk_str, String.append_assoc]
        rw [← ih rs cs []]
        simp [List.take_nil, List.drop_nil]
    | r :: rs, c :: cs, v :: vs =>
        simp only [List.take_succ_cons, List.drop_succ_cons, triplet_chunk_str,
          String.append_assoc]
        rw [← ih rs cs vs]

/-- The emitted text of a chunk equals the specification's per-record lines. -/
theorem triplet_chunk_str_eq_spec {γ : Type} (its : Int → String) (vts : γ → String)
    (rows cols : List Int) (vals : List γ) :
    triplet_chunk_str its vts rows cols vals = spec_triplet_body its vts rows cols vals := by
  induction rows generalizing cols vals with
  | nil => cases cols <;> cases vals <;> simp [triplet_chunk_str, spec_triplet_body]
  | cons r rs ih =>
    cases cols with
    | nil => cases vals <;> simp [triplet_chunk_str, spec_triplet_body]
    | cons c cs =>
      cases vals with
      | nil =>
        simp [triplet_chunk_str, spec_triplet_body, spec_triplet_line, ih,
          String.append_assoc]
      | cons v vs =>
        simp [triplet_chunk_str, spec_triplet_body, spec_triplet_line, ih,
          String.append_assoc]

/-- A chunk emitted from non-empty row and column ranges ends with a newline. -/
theorem triplet_chunk_str_ends_newline {γ : Type} (its : Int → String)
    (vts : γ → String) (rows cols : List Int) (vals : List γ)
    (hrows : rows ≠ []) (hcols : cols ≠ []) :
    ∃ t, triplet_chunk_str its vts rows cols vals = t ++ kNewline := by
  induction rows generalizing cols vals with
  | nil => exact absurd rfl hrows
  | cons r rs ih =>
    cases cols with
    | nil => exact absurd rfl hcols
    | cons c cs =>
      by_cases htail : rs = [] ∨ cs = []
      · have hnil : ∀ vs : List γ, triplet_chunk_str its vts rs cs vs = "" := by
          intro vs
          rcases htail with h | h <;> subst h <;> cases vs <;>
            simp [triplet_chunk_str]
        cases vals with
        | nil =>
          exact ⟨its (r + 1) ++ kSpace ++ its (c + 1), by
            simp [triplet_chunk_str, hnil, String.append_assoc]⟩
        | cons v vs =>
          exact ⟨its (r + 1) ++ kSpace ++ its (c + 1) ++ kSpace ++ vts v, by
            simp [triplet_chunk_str, hnil, String.append_assoc]⟩
      · push_neg at htail
        cases vals with
        | nil =>
          obtain ⟨t, ht⟩ := ih cs ([] : List γ) htail.1 htail.2
          exact ⟨its (r + 1) ++ kSpace ++ its (c + 1) ++ kNewline ++ t, by
            simp [triplet_chunk_str, ht, String.append_assoc]⟩
        | cons v vs =>
          obtain ⟨t, ht⟩ := ih cs vs htail.1 htail.2
          exact ⟨its (r + 1) ++ kSpace ++ its (c + 1) ++ kSpace ++ vts v ++ kNewline ++ t, by
            simp [triplet_chunk_str, ht, String.append_assoc]⟩

/-- Lengths after one `next_chunk` advance. -/
theorem triplet_next_chunk_advance {γ : Type} (options : write_options)
    (s : triplet_state γ) (hcsv : 1 ≤ options.chunk_size_values) :
    (triplet_next_chunk options s).2.rows.length =
      s.rows.length - min options.chunk_size_values.toNat s.rows.length ∧
    (s.rows ≠ [] → 0 < min options.chunk_size_values.toNat s.rows.length) := by
  have hmin : (min options.chunk_size_values (s.rows.length : Int)).toNat =
      min options.chunk_size_values.toNat s.rows.length := by omega
  constructor
  · simp [triplet_next_chunk, hmin]
  · intro h
    have : 0 < s.rows.length := List.length_pos.mpr h
    omega

/-- C7: constructing a triplet_formatter raises invalid_argument exactly when
the row and column ranges differ in length, or the value range is non-empty
and differs in length from the row range; with an empty value range and equal
row/column lengths construction succeeds. -/
theorem triplet_formatter_ctor_throws_iff {γ : Type} (rows cols : List Int)
    (vals : List γ) :
    (triplet_formatter_mk rows cols vals = Except.error kLengthError ↔
      rows.length ≠ cols.length ∨ (vals.length ≠ 0 ∧ vals.length ≠ rows.length)) ∧
    (vals = [] → rows.length = cols.length →
      triplet_formatter_mk rows cols vals = Except.ok ⟨rows, cols, vals⟩) := by
  have hnil : (vals = []) ↔ vals.length = 0 := List.length_eq_zero.symm
  by_cases h : rows.length ≠ cols.length ∨ (rows.length ≠ vals.length ∧ vals.length ≠ 0)
  · refine ⟨?_, ?_⟩
    · simp only [triplet_formatter_mk, if_pos h]
      exact ⟨fun _ => by omega, fun _ => trivial⟩
    · intro hv hl
      rw [hnil] at hv
      exact absurd trivial (by omega)
  · refine ⟨?_, ?_⟩
    · simp only [triplet_formatter_mk, if_neg h]
      refine ⟨fun he => absurd he (by simp), fun hc => absurd hc (by omega)⟩
    · intro hv hl
      simp only [triplet_formatter_mk, if_neg h]

/-- C4: for every valid triplet input and every chunk_size_values >= 1,
concatenating the chunk strings produced by triplet_formatter in the order
next_chunk returns them equals the concatenation over records, in input order,
of the per-record line (value column present exactly when the value range is
non-empty); in particular the result is independent of chunk_size_values, and
every produced chunk ends with a newline. -/
theorem triplet_formatter_chunks_concat {γ : Type} (its : Int → String)
    (vts : γ → String) (options : write_options) (rows cols : List Int)
    (vals : List γ) (fuel : Nat)
    (hlen : cols.length = rows.length)
    (hvals : vals.length = rows.length ∨ vals = [])
    (hcsv : 1 ≤ options.chunk_size_values)
    (hfuel : rows.length ≤ fuel) :
    str_concat (triplet_chunks its vts options fuel ⟨rows, cols, vals⟩) =
      spec_triplet_body its vts rows cols vals ∧
    ∀ s ∈ triplet_chunks its vts options fuel ⟨rows, cols, vals⟩,
      ∃ t, s = t ++ kNewline := by
  induction fuel generalizing rows cols vals with
  | zero =>
    have hr : rows = [] := by
      cases rows with
      | nil => rfl
      | cons a l => simp at hfuel
    subst hr
    refine ⟨?_, by simp [triplet_chunks]⟩
    cases cols <;> cases vals <;> simp [triplet_chunks, str_concat, spec_triplet_body]
  | succ fuel ih =>
    by_cases hr : rows = []
    · subst hr
      refine ⟨?_, by simp [triplet_chunks]⟩
      cases cols <;> cases vals <;> simp [triplet_chunks, str_concat, spec_triplet_body]
    · have hlenpos : 0 < rows.length := List.length_pos.mpr hr
      have hmin : (min options.chunk_size_values ((rows.length : Int))).toNat =
          min options.chunk_size_values.toNat rows.length := by omega
      set n := min options.chunk_size_values.toNat rows.length with hn
      have hn1 : 1 ≤ n := by omega
      have hemp : rows.isEmpty = false := by simp [hr]
      have hstep : triplet_chunks its vts options (fuel + 1)
            (⟨rows, cols, vals⟩ : triplet_state γ) =
          triplet_chunk_str its vts (rows.take n) cols (vals.take n) ::
            triplet_chunks its vts options fuel ⟨rows.drop n, cols.drop n, vals.drop n⟩ := by
        simp only [triplet_chunks, triplet_next_chunk, hemp, Bool.false_eq_true,
          if_false, hmin]
      have hlen' : (cols.drop n).length = (rows.drop n).length := by
        simp [hlen]
      have hvals' : (vals.drop n).length = (rows.drop n).length ∨ vals.drop n = [] := by
        rcases hvals with h | h
        · left; simp [h]
        · right; simp [h]
      have hfuel' : (rows.drop n).length ≤ fuel := by
        simp only [List.length_drop]
        omega
      obtain ⟨ihc, ihm⟩ := ih (rows.drop n) (cols.drop n) (vals.drop n) hlen' hvals' hfuel'
      constructor
      · rw [hstep]
        show triplet_chunk_str its vts (rows.take n) cols (vals.take n) ++
            str_concat (triplet_chunks its vts options fuel
              ⟨rows.drop n, cols.drop n, vals.drop n⟩) = _
        rw [ihc, ← triplet_chunk_str_eq_spec its vts (rows.drop n) (cols.drop n) (vals.drop n),
          triplet_chunk_str_split its vts n rows cols vals,
          triplet_chunk_str_eq_spec]
      · rw [hstep]
        intro s hs
        rcases List.mem_cons.mp hs with h | h
        · subst h
          apply triplet_chunk_str_ends_newline
          · intro habs
            have h0 : (rows.take n).length = 0 := by rw [habs]; rfl
            rw [List.length_take] at h0
            rcases Nat.min_eq_zero_iff.mp h0 with h1 | h1 <;> omega
          · intro habs
            have h0 : cols.length = 0 := by rw [habs]; rfl
            omega
        · exact ihm s h

/-- Drain-loop call count as a function of the number of records. -/
theorem triplet_chunk_count_eq {γ : Type} (options : write_options)
    (hcsv : 1 ≤ options.chunk_size_values) (fuel : Nat) (s : triplet_state γ)
    (hfuel : s.rows.length ≤ fuel) :
    triplet_chunk_count options fuel s =
      (s.rows.length + options.chunk_size_values.toNat - 1) /
        options.chunk_size_values.toNat := by
  set c := options.chunk_size_values.toNat with hc
  have hc1 : 1 ≤ c := by omega
  induction fuel generalizing s with
  | zero =>
    have h0 : s.rows.length = 0 := by omega
    rw [triplet_chunk_count, h0, Nat.div_eq_of_lt (by omega)]
  | succ fuel ih =>
    by_cases hr : s.rows.isEmpty
    · have h0 : s.rows.length = 0 := by
        rw [List.isEmpty_iff] at hr
        simp [hr]
      rw [triplet_chunk_count, if_pos hr, h0, Nat.div_eq_of_lt (by omega)]
    · have hne : s.rows ≠ [] := by
        intro h
        exact hr (by simp [h])
      have hlen1 : 1 ≤ s.rows.length := List.length_pos.mpr hne
      have hadv := triplet_next_chunk_advance options s hcsv
      have hlen' : (triplet_next_chunk options s).2.rows.length =
          s.rows.length - min c s.rows.length := hadv.1
      have key : ∀ m : Nat, 1 ≤ m →
          (m + c - 1) / c = 1 + (m - min c m + c - 1) / c := by
        intro m hm
        rcases le_total c m with h | h
        · rw [min_eq_left h]
          have e1 : m - c + c - 1 = m - 1 := by omega
          have e2 : m + c - 1 = m - 1 + c := by omega
          rw [e1, e2, Nat.add_div_right _ (by omega : 0 < c)]
          omega
        · rw [min_eq_right h]
          have e1 : m - m + c - 1 = c - 1 := by omega
          have e2 : m + c - 1 = m - 1 + c := by omega
          rw [e1, e2, Nat.add_div_right _ (by omega : 0 < c),
            Nat.div_eq_of_lt (by omega : m - 1 < c),
            Nat.div_eq_of_lt (by omega : c - 1 < c)]
      rw [triplet_chunk_count, if_neg hr,
        ih (triplet_next_chunk options s).2 (by rw [hlen']; omega),
        hlen', key s.rows.length hlen1]

/-- After a sufficiently fuelled drain the formatter has no rows left. -/
theorem triplet_drain_state_rows {γ : Type} (options : write_options)
    (hcsv : 1 ≤ options.chunk_size_values) (fuel : Nat) (s : triplet_state γ)
    (hfuel : s.rows.length ≤ fuel) :
    (triplet_drain_state options fuel s).rows = [] := by
  induction fuel generalizing s with
  | zero =>
    have h0 : s.rows.length = 0 := by omega
    rw [triplet_drain_state]
    exact List.length_eq_zero.mp h0
  | succ fuel ih =>
    by_cases hr : s.rows.isEmpty
    · rw [triplet_drain_state, if_pos hr]
      exact List.isEmpty_iff.mp hr
    · have hne : s.rows ≠ [] := fun h => hr (by simp [h])
      have hadv := triplet_next_chunk_advance options s hcsv
      rw [triplet_drain_state, if_neg hr]
      apply ih
      rw [hadv.1]
      have := hadv.2 hne
      have := List.length_pos.mpr hne
      omega

/-- C10: for every valid triplet_formatter over n records and every
chunk_size_values >= 1, the drain loop performs exactly
ceil(n / chunk_size_values) next_chunk calls, after which has_next() is
false; each call advances the row iterator by min(chunk_size_values, records
remaining), positive while has_next() holds. -/
theorem triplet_formatter_drain_terminates {γ : Type} (options : write_options)
    (rows cols : List Int) (vals : List γ) (fuel : Nat)
    (hcsv : 1 ≤ options.chunk_size_values)
    (hfuel : rows.length ≤ fuel) :
    triplet_chunk_count options fuel (⟨rows, cols, vals⟩ : triplet_state γ) =
      (rows.length + options.chunk_size_values.toNat - 1) /
        options.chunk_size_values.toNat ∧
    triplet_has_next (triplet_drain_state options fuel
      (⟨rows, cols, vals⟩ : triplet_state γ)) = false ∧
    ∀ s : triplet_state γ,
      s.rows.length - (triplet_next_chunk options s).2.rows.length =
        min options.chunk_size_values.toNat s.rows.length ∧
      (triplet_has_next s = true →
        0 < min options.chunk_size_values.toNat s.rows.length) := by
  refine ⟨triplet_chunk_count_eq options hcsv fuel _ hfuel, ?_, ?_⟩
  · have h := triplet_drain_state_rows options hcsv fuel
      (⟨rows, cols, vals⟩ : triplet_state γ) hfuel
    simp [triplet_has_next, h]
  · intro s
    have hadv := triplet_next_chunk_advance options s hcsv
    constructor
    · rw [hadv.1]
      omega
    · intro hnext
      apply hadv.2
      intro h
      rw [triplet_has_next, h] at hnext
      simp at hnext

/-- Witness for triplet_formatter_chunks_concat: three records, value range
present, chunk_size_values = 2. -/
theorem triplet_formatter_chunks_concat_witness :
    str_concat (triplet_chunks toString toString ⟨2⟩ 3
        (⟨[0, 1, 2], [0, 2, 1], ([5, 6, 7] : List Int)⟩ : triplet_state Int)) =
      spec_triplet_body toString toString [0, 1, 2] [0, 2, 1] ([5, 6, 7] : List Int) ∧
    ∀ s ∈ triplet_chunks toString toString ⟨2⟩ 3
        (⟨[0, 1, 2], [0, 2, 1], ([5, 6, 7] : List Int)⟩ : triplet_state Int),
      ∃ t, s = t ++ kNewline :=
  triplet_formatter_chunks_concat toString toString ⟨2⟩ [0, 1, 2] [0, 2, 1]
    [5, 6, 7] 3 (by decide) (by decide) (by decide) (by decide)

/-- Witness for triplet_formatter_ctor_throws_iff: mismatched row/column
lengths throw; an empty value range with matching row/column lengths does
not. -/
theorem triplet_formatter_ctor_throws_iff_witness :
    triplet_formatter_mk [0, 1] [0] ([] : List Int) = Except.error kLengthError ∧
    triplet_formatter_mk [0, 1] [2, 3] ([] : List Int) =
      Except.ok ⟨[0, 1], [2, 3], []⟩ :=
  ⟨(triplet_formatter_ctor_throws_iff [0, 1] [0] ([] : List Int)).1.mpr (by decide),
   (triplet_formatter_ctor_throws_iff [0, 1] [2, 3] ([] : List Int)).2 rfl rfl⟩

/-- Witness for triplet_formatter_drain_terminates: five records with
chunk_size_values = 2 drain in ceil(5/2) = 3 calls. -/
theorem triplet_formatter_drain_terminates_witness :
    triplet_chunk_count ⟨2⟩ 5
        (⟨[0, 1, 2, 3, 4], [5, 6, 7, 8, 9], ([] : List Int)⟩ : triplet_state Int) =
      (([0, 1, 2, 3, 4] : List Int).length + (2 : Int).toNat - 1) / (2 : Int).toNat ∧
    triplet_has_next (triplet_drain_state ⟨2⟩ 5
        (⟨[0, 1, 2, 3, 4], [5, 6, 7, 8, 9], ([] : List Int)⟩ : triplet_state Int)) =
      false :=
  ⟨(triplet_formatter_drain_terminates ⟨2⟩ [0, 1, 2, 3, 4] [5, 6, 7, 8, 9] []
      5 (by decide) (by decide)).1,
   (triplet_formatter_drain_terminates ⟨2⟩ [0, 1, 2, 3, 4] [5, 6, 7, 8, 9] []
      5 (by decide) (by decide)).2.1⟩

/-- Effect of a sequence of handle calls on an arbitrary starting handler:
the offset advances by the record count, cells outside the written window are
untouched, and the j-th call writes the j-th record at position offset + j. -/
theorem tnph_run_spec {IT VT : Type} (records : List (IT × IT × VT)) :
    ∀ g : triplet_numpy_handler IT VT,
      (tnph_run g records).offset = g.offset + records.length ∧
      (∀ i : Int, (i < g.offset ∨ g.offset + records.length ≤ i) →
        (tnph_run g records).rows i = g.rows i ∧
        (tnph_run g records).cols i = g.cols i ∧
        (tnph_run g records).values i = g.values i) ∧
      (∀ j : Nat, ∀ hj : j < records.length,
        (tnph_run g records).rows (g.offset + j) = (records.get ⟨j, hj⟩).1 ∧
        (tnph_run g records).cols (g.offset + j) = (records.get ⟨j, hj⟩).2.1 ∧
        (tnph_run g records).values (g.offset + j) = (records.get ⟨j, hj⟩).2.2) := by
  induction records with
  | nil =>
    intro g
    refine ⟨by simp [tnph_run], fun i _ => by simp [tnph_run], fun j hj => by simp at hj⟩
  | cons rec rest ih =>
    intro g
    obtain ⟨r, c, v⟩ := rec
    have hoff : (tnph_handle g r c v).offset = g.offset + 1 := rfl
    have hrun : tnph_run g ((r, c, v) :: rest) = tnph_run (tnph_handle g r c v) rest := rfl
    obtain ⟨ihoff, ihframe, ihwrite⟩ := ih (tnph_handle g r c v)
    refine ⟨?_, ?_, ?_⟩
    · rw [hrun, ihoff, hoff]
      simp only [List.length_cons]
      push_cast
      ring
    · intro i hi
      have hi' : i < (tnph_handle g r c v).offset ∨
          (tnph_handle g r c v).offset + rest.length ≤ i := by
        rw [hoff]
        rcases hi with h | h
        · left; omega
        · right
          simp only [List.length_cons] at h
          push_cast at h ⊢
          omega
      have hne : i ≠ g.offset := by
        rcases hi with h | h
        · omega
        · simp only [List.length_cons] at h
          push_cast at h
          omega
      obtain ⟨hr1, hc1, hv1⟩ := ihframe i hi'
      rw [hrun]
      refine ⟨?_, ?_, ?_⟩
      · rw [hr1]; simp [tnph_handle, hne]
      · rw [hc1]; simp [tnph_handle, hne]
      · rw [hv1]; simp [tnph_handle, hne]
    · intro j hj
      cases j with
      | zero =>
        have hfr : g.offset < (tnph_handle g r c v).offset ∨
            (tnph_handle g r c v).offset + rest.length ≤ g.offset := by
          left
          rw [hoff]
          omega
        obtain ⟨hr1, hc1, hv1⟩ := ihframe g.offset hfr
        rw [hrun]
        simp only [Nat.cast_zero, add_zero]
        refine ⟨?_, ?_, ?_⟩
        · rw [hr1]; simp [tnph_handle]
        · rw [hc1]; simp [tnph_handle]
        · rw [hv1]; simp [tnph_handle]
      | succ j' =>
        have hj' : j' < rest.length := by
          simp only [List.length_cons] at hj
          omega
        have heq : g.offset + ((j' + 1 : Nat) : Int) =
            (tnph_handle g r c v).offset + (j' : Int) := by
          rw [hoff]
          push_cast
          ring
        obtain ⟨hr1, hc1, hv1⟩ := ihwrite j' hj'
        rw [hrun, heq]
        exact ⟨hr1, hc1, hv1⟩

/-- C8: a chunk handler obtained from triplet_numpy_parse_handler via
get_chunk_handler(offset) writes exactly positions offset, ..., offset+n-1 of
the rows, cols and values arrays over n handle calls — the j-th call writes
the j-th record at position offset + j — and modifies no other position, so
handlers with disjoint record-ordinal ranges write disjoint index ranges. -/
theorem triplet_numpy_chunk_handler_frame {IT VT : Type}
    (h : triplet_numpy_handler IT VT) (o : Int)
    (records : List (IT × IT × VT)) :
    (tnph_run (tnph_get_chunk_handler h o) records).offset = o + records.length ∧
    (∀ i : Int, (i < o ∨ o + records.length ≤ i) →
      (tnph_run (tnph_get_chunk_handler h o) records).rows i = h.rows i ∧
      (tnph_run (tnph_get_chunk_handler h o) records).cols i = h.cols i ∧
      (tnph_run (tnph_get_chunk_handler h o) records).values i = h.values i) ∧
    (∀ j : Nat, ∀ hj : j < records.length,
      (tnph_run (tnph_get_chunk_handler h o) records).rows (o + j) =
        (records.get ⟨j, hj⟩).1 ∧
      (tnph_run (tnph_get_chunk_handler h o) records).cols (o + j) =
        (records.get ⟨j, hj⟩).2.1 ∧
      (tnph_run (tnph_get_chunk_handler h o) records).values (o + j) =
        (records.get ⟨j, hj⟩).2.2) :=
  tnph_run_spec records (tnph_get_chunk_handler h o)

/-- Witness for triplet_numpy_chunk_handler_frame: two records written at
offset 5 leave position 0 untouched and place the second record at index 6. -/
theorem triplet_numpy_chunk_handler_frame_witness :
    (tnph_run (tnph_get_chunk_handler
        (⟨fun _ => 0, fun _ => 0, fun _ => 0, 0⟩ : triplet_numpy_handler Int Int) 5)
        [(1, 2, 3), (4, 5, 6)]).rows 0 = 0 ∧
    (tnph_run (tnph_get_chunk_handler
        (⟨fun _ => 0, fun _ => 0, fun _ => 0, 0⟩ : triplet_numpy_handler Int Int) 5)
        [(1, 2, 3), (4, 5, 6)]).values ((5 : Int) + (1 : Nat)) = 6 := by
  have hspec := triplet_numpy_chunk_handler_frame
    (⟨fun _ => 0, fun _ => 0, fun _ => 0, 0⟩ : triplet_numpy_handler Int Int) 5
    [(1, 2, 3), (4, 5, 6)]
  exact ⟨(hspec.2.1 0 (by left; decide)).1, (hspec.2.2 1 (by decide)).2.2⟩

/-- Reading k consecutive cells starting at position m is take-after-drop. -/
theorem getD_range_map_eq_take_drop {α : Type} (d : α) :
    ∀ (k : Nat) (l : List α) (m : Nat), m + k ≤ l.length →
      (List.range k).map (fun i => l.getD (m + i) d) = (l.drop m).take k := by
  intro k
  induction k with
  | zero => intro l m h; simp
  | succ k ih =>
    intro l m h
    have hm : m < l.length := by omega
    rw [List.range_succ_eq_map, List.map_cons, List.map_map,
      List.drop_eq_getElem_cons hm]
    have h1 : l.getD (m + 0) d = l[m] := by
      simp [List.getD_eq_getElem?_getD, List.getElem?_eq_getElem hm]
    have h2 : (List.range k).map ((fun i => l.getD (m + i) d) ∘ Nat.succ) =
        (List.range k).map (fun i => l.getD (m + 1 + i) d) := by
      apply List.map_congr_left
      intro a _
      simp only [Function.comp_apply]
      congr 1
      omega
    rw [h1, h2, List.take_succ_cons, ih l (m + 1) (by omega)]

/-- Consecutive ncols-sized blocks of getD reads flatten back to the list. -/
theorem blocks_flatMap_eq {α : Type} (d : α) (ncols : Nat) :
    ∀ (n s : Nat) (values : List α), values.length = (s + n) * ncols →
      (List.range' s n).flatMap
          (fun r => (List.range ncols).map fun i => values.getD (r * ncols + i) d) =
        values.drop (s * ncols) := by
  intro n
  induction n with
  | zero =>
    intro s values h
    simp only [List.range', List.flatMap_nil]
    symm
    apply List.drop_eq_nil_of_le
    rw [h]
    simp
  | succ n ih =>
    intro s values h
    rw [List.range'_succ, List.flatMap_cons,
      ih (s + 1) values (by rw [h]; ring)]
    have hchunk : (List.range ncols).map (fun i => values.getD (s * ncols + i) d) =
        (values.drop (s * ncols)).take ncols := by
      apply getD_range_map_eq_take_drop
      have : (s + 1) * ncols ≤ (s + (n + 1)) * ncols :=
        Nat.mul_le_mul_right ncols (by omega)
      calc s * ncols + ncols = (s + 1) * ncols := by ring
        _ ≤ values.length := by omega
    rw [hchunk]
    have hdrop : values.drop ((s + 1) * ncols) =
        (values.drop (s * ncols)).drop ncols := by
      rw [List.drop_drop]
      congr 1
      ring
    rw [hdrop, List.take_append_drop]

/-- The array_formatter drain is the concatenation of its per-column chunks. -/
theorem array_formatter_values_eq {α : Type} (values : List α) (d : α)
    (order : storage_order) (nrows ncols : Nat) :
    ∀ (fuel cur : Nat), cur + fuel = ncols →
      array_formatter_values values d order nrows ncols fuel cur =
        (List.range' cur fuel).flatMap
          (fun c => array_chunk_values values d order nrows ncols c) := by
  intro fuel
  induction fuel with
  | zero => intro cur h; simp [array_formatter_values]
  | succ fuel ih =>
    intro cur h
    have hne : cur ≠ ncols := by omega
    rw [array_formatter_values, if_neg hne, List.range'_succ, List.flatMap_cons,
      ih (cur + 1) (by omega)]

/-- The row_major_array_formatter drain is the concatenation of its per-row
chunks. -/
theorem row_major_formatter_values_eq {α : Type} (values : List α) (d : α)
    (nrows ncols : Nat) :
    ∀ (fuel cur : Nat), cur + fuel = nrows →
      row_major_formatter_values values d nrows ncols fuel cur =
        (List.range' cur fuel).flatMap
          (fun r => row_major_chunk_values values d ncols r) := by
  intro fuel
  induction fuel with
  | zero => intro cur h; simp [row_major_formatter_values]
  | succ fuel ih =>
    intro cur h
    have hne : cur ≠ nrows := by omega
    rw [row_major_formatter_values, if_neg hne, List.range'_succ, List.flatMap_cons,
      ih (cur + 1) (by omega)]

/-- The array_formatter text drain is one `value ++ newline` line per emitted
value. -/
theorem array_formatter_str_eq {α : Type} (vts : α → String) (values : List α)
    (d : α) (order : storage_order) (nrows ncols : Nat) :
    ∀ (fuel cur : Nat),
      array_formatter_str vts values d order nrows ncols fuel cur =
        str_concat ((array_formatter_values values d order nrows ncols fuel cur).map
          fun v => vts v ++ kNewline) := by
  intro fuel
  induction fuel with
  | zero => intro cur; simp [array_formatter_str, array_formatter_values, str_concat]
  | succ fuel ih =>
    intro cur
    by_cases h : cur = ncols
    · simp [array_formatter_str, array_formatter_values, h, str_concat]
    · rw [array_formatter_str, if_neg h, array_formatter_values, if_neg h,
        List.map_append, str_concat_append, ih, array_chunk_str]

/-- The row_major_array_formatter text drain is one `value ++ newline` line
per emitted value. -/
theorem row_major_formatter_str_eq {α : Type} (vts : α → String)
    (values : List α) (d : α) (nrows ncols : Nat) :
    ∀ (fuel cur : Nat),
      row_major_formatter_str vts values d nrows ncols fuel cur =
        str_concat ((row_major_formatter_values values d nrows ncols fuel cur).map
          fun v => vts v ++ kNewline) := by
  intro fuel
  induction fuel with
  | zero =>
    intro cur
    simp [row_major_formatter_str, row_major_formatter_values, str_concat]
  | succ fuel ih =>
    intro cur
    by_cases h : cur = nrows
    · simp [row_major_formatter_str, row_major_formatter_values, h, str_concat]
    · rw [row_major_formatter_str, if_neg h, row_major_formatter_values, if_neg h,
        List.map_append, str_concat_append, ih, row_major_chunk_str]

/-- C2 amended: array_formatter emits one value per line and its value
sequence is the source matrix in column-major order for both storage orders
(for a column-major source this is the stored list itself); the
row_major_array_formatter, however, emits the stored row-major list in
source order — one row per chunk — which is the row-major, not column-major,
order of its source matrix. -/
theorem dense_formatter_emission {α : Type} (vts : α → String) (values : List α)
    (d : α) (nrows ncols : Nat) (hlen : values.length = nrows * ncols) :
    (∀ order : storage_order,
      array_formatter_values values d order nrows ncols ncols 0 =
        spec_col_major (fun r c => array_source_elem values d order nrows ncols r c)
          nrows ncols ∧
      array_formatter_str vts values d order nrows ncols ncols 0 =
        str_concat ((array_formatter_values values d order nrows ncols ncols 0).map
          fun v => vts v ++ kNewline)) ∧
    array_formatter_values values d storage_order.col_major nrows ncols ncols 0 =
      values ∧
    (0 < nrows →
      row_major_formatter_all values d nrows = values ∧
      row_major_formatter_str vts values d nrows (values.length / nrows) nrows 0 =
        str_concat (values.map fun v => vts v ++ kNewline)) := by
  have hdrain : ∀ order : storage_order,
      array_formatter_values values d order nrows ncols ncols 0 =
        (List.range ncols).flatMap
          (fun c => array_chunk_values values d order nrows ncols c) := by
    intro order
    rw [array_formatter_values_eq values d order nrows ncols ncols 0 (by omega),
      List.range_eq_range']
  refine ⟨?_, ?_, ?_⟩
  · intro order
    refine ⟨?_, array_formatter_str_eq vts values d order nrows ncols ncols 0⟩
    rw [hdrain order]
    simp only [spec_col_major, array_chunk_values, array_source_elem]
  · rw [hdrain storage_order.col_major]
    have hb := blocks_flatMap_eq d nrows ncols 0 values (by rw [hlen]; ring)
    simp only [Nat.zero_mul, List.drop_zero] at hb
    calc (List.range ncols).flatMap
          (fun c => array_chunk_values values d storage_order.col_major nrows ncols c)
        = (List.range' 0 ncols).flatMap
            (fun r => (List.range nrows).map fun i => values.getD (r * nrows + i) d) := by
          rw [List.range_eq_range' ncols]
          simp [array_chunk_values]
      _ = values := hb
  · intro hnr
    have hdiv : values.length / nrows = ncols := by
      rw [hlen]
      exact Nat.mul_div_cancel_left _ hnr
    have hb := blocks_flatMap_eq d ncols nrows 0 values (by rw [hlen]; ring)
    simp only [Nat.zero_mul, List.drop_zero] at hb
    have hvals : row_major_formatter_all values d nrows = values := by
      rw [row_major_formatter_all, hdiv,
        row_major_formatter_values_eq values d nrows ncols nrows 0 (by omega)]
      simpa [row_major_chunk_values] using hb
    refine ⟨hvals, ?_⟩
    rw [row_major_formatter_str_eq, hdiv,
      row_major_formatter_values_eq values d nrows ncols nrows 0 (by omega)]
    simpa [row_major_chunk_values] using congrArg
      (fun l => str_concat (l.map fun v => vts v ++ kNewline)) hb

/-- C2 counterexample: over the row-major 2-by-3 source [1,2,3,4,5,6] (so
M[0,0]=1, M[0,1]=2, M[0,2]=3, M[1,0]=4, M[1,1]=5, M[1,2]=6), the
row_major_array_formatter emits 1,2,3,4,5,6 while the column-major order of
the source is 1,4,2,5,3,6: the claimed column-major emission fails. -/
theorem row_major_array_formatter_not_col_major :
    row_major_formatter_all ([1, 2, 3, 4, 5, 6] : List Int) 0 2 =
      [1, 2, 3, 4, 5, 6] ∧
    spec_col_major
      (fun r c => array_source_elem ([1, 2, 3, 4, 5, 6] : List Int) 0
        storage_order.row_major 2 3 r c) 2 3 = [1, 4, 2, 5, 3, 6] ∧
    row_major_formatter_all ([1, 2, 3, 4, 5, 6] : List Int) 0 2 ≠
      spec_col_major
        (fun r c => array_source_elem ([1, 2, 3, 4, 5, 6] : List Int) 0
          storage_order.row_major 2 3 r c) 2 3 :=
  ⟨by decide, by decide, by decide⟩

/-- Witness for dense_formatter_emission on the 2-by-3 matrix [1..6]. -/
theorem dense_formatter_emission_witness :
    array_formatter_values ([1, 2, 3, 4, 5, 6] : List Int) 0
      storage_order.col_major 2 3 3 0 = [1, 2, 3, 4, 5, 6] ∧
    row_major_formatter_all ([1, 2, 3, 4, 5, 6] : List Int) 0 2 =
      [1, 2, 3, 4, 5, 6] :=
  ⟨(dense_formatter_emission toString ([1, 2, 3, 4, 5, 6] : List Int) 0 2 3
      (by decide)).2.1,
   ((dense_formatter_emission toString ([1, 2, 3, 4, 5, 6] : List Int) 0 2 3
      (by decide)).2.2 (by decide)).1⟩

/-- A rational at least one truncates (C-cast) to an integer at least one. -/
theorem cast_int64_pos_of_one_le (q : Rat) (h : 1 ≤ q) : 1 ≤ cast_int64 q := by
  rw [cast_int64, if_neg (by linarith)]
  exact Int.le_floor.mpr (by exact_mod_cast h)

/-- The csc_formatter column count per work unit is at least one when
chunk_size_values is non-negative. -/
theorem csc_num_columns_ge_one (s : csc_state) (csv : Int) (hcsv : 0 ≤ csv) :
    1 ≤ cast_int64 (nnz_per_column s * (csv : Rat) + 1) := by
  apply cast_int64_pos_of_one_le
  have h1 : 0 ≤ nnz_per_column s := by
    rw [nnz_per_column]
    positivity
  have h2 : (0 : Rat) ≤ (csv : Rat) := by exact_mod_cast hcsv
  nlinarith

/-- C5 counterexample: a CSC source with 8 columns and 16 stored indices has
nnz_per_column = 2.0 (exactly representable; every double operation involved
is exact), and with chunk_size_values = 1 the code's next_chunk covers
(int64_t)(2.0 * 1 + 1) = 3 columns, whereas the claimed formula
ceil(chunk_size_values / nnz_per_column) = ceil(1 / 2) gives 1 column. -/
theorem csc_next_chunk_cols_counterexample :
    csc_next_chunk_cols ⟨8, 16, 0⟩ ⟨1⟩ = 3 ∧
    spec_csc_chunk_cols ⟨8, 16, 0⟩ ⟨1⟩ = 1 ∧
    csc_next_chunk_cols ⟨8, 16, 0⟩ ⟨1⟩ ≠ spec_csc_chunk_cols ⟨8, 16, 0⟩ ⟨1⟩ := by
  have hcode : csc_next_chunk_cols ⟨8, 16, 0⟩ ⟨1⟩ = 3 := by
    unfold csc_next_chunk_cols
    norm_num [cast_int64, nnz_per_column]
    decide
  have hspec : spec_csc_chunk_cols ⟨8, 16, 0⟩ ⟨1⟩ = 1 := by
    unfold spec_csc_chunk_cols
    rw [show (((1 : Int) : Rat) / nnz_per_column ⟨8, 16, 0⟩) = 1 / 2 by
      norm_num [nnz_per_column]]
    rw [show Int.ceil ((1 : Rat) / 2) = 1 by norm_num [Int.ceil_eq_iff]]
    norm_num
  refine ⟨hcode, hspec, ?_⟩
  rw [hcode, hspec]
  decide

/-- C5 amended: each csc_formatter work unit covers
min((int64_t)(nnz_per_column * chunk_size_values + 1), columns remaining)
columns — a count proportional to nnz_per_column * chunk_size_values, not
ceil(chunk_size_values / nnz_per_column); for chunk_size_values >= 0 every
work unit is non-empty while columns remain, and the unit column counts over
the drain sum to the number of remaining columns. -/
theorem csc_next_chunk_partition (ptr_len nnz pos : Nat) (csv : Int) (fuel : Nat)
    (hcsv : 0 ≤ csv) (hpos : pos ≤ ptr_len) (hfuel : ptr_len - pos ≤ fuel) :
    csc_next_chunk_cols ⟨ptr_len, nnz, pos⟩ ⟨csv⟩ =
      min (cast_int64 (nnz_per_column ⟨ptr_len, nnz, pos⟩ * (csv : Rat) + 1)).toNat
        (ptr_len - pos) ∧
    (pos < ptr_len → 0 < csc_next_chunk_cols ⟨ptr_len, nnz, pos⟩ ⟨csv⟩) ∧
    (csc_chunk_sizes ⟨csv⟩ fuel ⟨ptr_len, nnz, pos⟩).sum = ptr_len - pos := by
  have hform : ∀ p : Nat,
      csc_next_chunk_cols ⟨ptr_len, nnz, p⟩ ⟨csv⟩ =
        min (cast_int64 (nnz_per_column ⟨ptr_len, nnz, p⟩ * (csv : Rat) + 1)).toNat
          (ptr_len - p) := by
    intro p
    have h1 := csc_num_columns_ge_one ⟨ptr_len, nnz, p⟩ csv hcsv
    unfold csc_next_chunk_cols
    dsimp only
    omega
  have hpos' : ∀ p : Nat, p < ptr_len →
      0 < csc_next_chunk_cols ⟨ptr_len, nnz, p⟩ ⟨csv⟩ := by
    intro p hp
    have h1 := csc_num_columns_ge_one ⟨ptr_len, nnz, p⟩ csv hcsv
    rw [hform p]
    omega
  refine ⟨hform pos, hpos' pos, ?_⟩
  induction fuel generalizing pos with
  | zero =>
    have h0 : pos = ptr_len := by omega
    rw [csc_chunk_sizes]
    simp [h0]
  | succ fuel ih =>
    by_cases hp : pos = ptr_len
    · rw [csc_chunk_sizes, if_pos hp, hp]
      simp
    · have hlt : pos < ptr_len := by omega
      have hn1 := hpos' pos hlt
      have hnle : csc_next_chunk_cols ⟨ptr_len, nnz, pos⟩ ⟨csv⟩ ≤ ptr_len - pos := by
        rw [hform pos]
        omega
      rw [csc_chunk_sizes, if_neg hp]
      have hstate : csc_next_chunk_state ⟨ptr_len, nnz, pos⟩ ⟨csv⟩ =
          ⟨ptr_len, nnz, pos + csc_next_chunk_cols ⟨ptr_len, nnz, pos⟩ ⟨csv⟩⟩ := rfl
      rw [List.sum_cons, hstate,
        ih (pos + csc_next_chunk_cols ⟨ptr_len, nnz, pos⟩ ⟨csv⟩) (by omega) (by omega)]
      omega

/-- Witness for csc_next_chunk_partition: 8 columns, 16 indices,
chunk_size_values = 1. -/
theorem csc_next_chunk_partition_witness :
    0 < csc_next_chunk_cols ⟨8, 16, 0⟩ ⟨1⟩ ∧
    (csc_chunk_sizes ⟨1⟩ 8 ⟨8, 16, 0⟩).sum = 8 - 0 :=
  ⟨(csc_next_chunk_partition 8 16 0 1 8 (by decide) (by decide) (by decide)).2.1
      (by decide),
   (csc_next_chunk_partition 8 16 0 1 8 (by decide) (by decide) (by decide)).2.2⟩

/-- Properties of the seeding loop: it reads a prefix of the stream in order,
pairs each chunk with its line count, reads at most n chunks, and reads at
least one when the cap is positive and the stream non-empty. -/
theorem seed_loop_spec {C : Type} (cl : C → Int) :
    ∀ (n : Nat) (stream : List C),
      (seed_loop cl n stream).1.map Prod.fst ++ (seed_loop cl n stream).2 = stream ∧
      (∀ p ∈ (seed_loop cl n stream).1, p.2 = cl p.1) ∧
      (seed_loop cl n stream).1.length ≤ n ∧
      ((seed_loop cl n stream).1 = [] → 1 ≤ n → stream = []) := by
  intro n
  induction n with
  | zero =>
    intro stream
    refine ⟨by simp [seed_loop], by simp [seed_loop], by simp [seed_loop],
      fun _ h => absurd h (by omega)⟩
  | succ n ih =>
    intro stream
    cases stream with
    | nil => refine ⟨by simp [seed_loop], by simp [seed_loop], by simp [seed_loop],
        fun _ _ => rfl⟩
    | cons c rest =>
      obtain ⟨h1, h2, h3, h4⟩ := ih rest
      refine ⟨?_, ?_, ?_, ?_⟩
      · simp only [seed_loop, List.map_cons, List.cons_append]
        rw [h1]
      · intro p hp
        simp only [seed_loop, List.mem_cons] at hp
        rcases hp with hp | hp
        · rw [hp]
        · exact h2 p hp
      · simp only [seed_loop, List.length_cons]
        omega
      · intro habs
        simp only [seed_loop] at habs
        exact absurd habs (by simp)

/-- The state after the seeding loop satisfies the loop invariant when the
in-flight cap is positive. -/
theorem engine_init_inv {C : Type} (cl : C → Int) (cap : Nat) (hl : Int)
    (stream : List C) (hcap : 1 ≤ cap) :
    engine_inv cl hl stream (engine_init cl cap hl stream) := by
  obtain ⟨h1, h2, h3, h4⟩ := seed_loop_spec cl cap stream
  refine ⟨by simpa [engine_init] using h1, by simpa [engine_init] using h2,
    by simp [engine_init], ?_, ?_⟩
  · intro i h
    simp [engine_init] at h
  · intro hq
    have horig : stream = [] := h4 (by simpa [engine_init] using hq) hcap
    rw [horig]
    show (seed_loop cl cap []).2 = []
    cases cap <;> simp [seed_loop]

/-- One dispatching iteration preserves the loop invariant. -/
theorem engine_step_inv {C : Type} (cl : C → Int) (hl : Int) (orig : List C)
    (s : engine_state C) (hinv : engine_inv cl hl orig s) :
    engine_inv cl hl orig (engine_step cl s) := by
  obtain ⟨h1, h2, h3, h4, h5⟩ := hinv
  match hq : s.queue with
  | [] =>
    rw [engine_step, hq]
    exact ⟨h1, h2, h3, h4, h5⟩
  | (chunk, cnt) :: qrest =>
    have hcnt : cnt = cl chunk := h2 (chunk, cnt) (by rw [hq]; exact List.mem_cons_self _ _)
    have hmap1 : ∀ q2 : List (C × Int), ∀ st2 : List C,
        q2.map Prod.fst ++ st2 = qrest.map Prod.fst ++ s.stream →
        ((s.assigned ++ [(chunk, s.line_num)]).map Prod.fst) ++ q2.map Prod.fst ++ st2 = orig := by
      intro q2 st2 hq2
      rw [List.map_append, List.append_assoc, hq2, ← List.append_assoc]
      simpa [hq] using h1
    have hidx : ∀ i : Nat, ∀ h : i < (s.assigned ++ [(chunk, s.line_num)]).length,
        ((s.assigned ++ [(chunk, s.line_num)]).get ⟨i, h⟩).2 =
          hl + ((((s.assigned ++ [(chunk, s.line_num)]).map Prod.fst).take i).map cl).sum := by
      intro i h
      simp only [List.length_append, List.length_cons, List.length_nil] at h
      by_cases hi : i < s.assigned.length
      · rw [List.get_append_left _ _ hi, h4 i hi]
        congr 2
        rw [List.map_append, List.take_append_of_le_length (by simp; omega)]
      · have hie : i = s.assigned.length := by omega
        subst hie
        have hget : ((s.assigned ++ [(chunk, s.line_num)]).get
            ⟨s.assigned.length, by simp⟩) = (chunk, s.line_num) := by
          simp
        rw [hget]
        have htake : ((s.assigned ++ [(chunk, s.line_num)]).map Prod.fst).take
            s.assigned.length = s.assigned.map Prod.fst := by
          rw [List.map_append]
          have hlen : s.assigned.length = (s.assigned.map Prod.fst).length := by simp
          rw [hlen, List.take_left]
        rw [htake]
        exact h3
    match hs : s.stream with
    | [] =>
      rw [engine_step, hq, hs]
      refine ⟨hmap1 qrest [] (by simp [hs]), ?_, ?_, hidx, fun _ => rfl⟩
      · intro p hp
        exact h2 p (by rw [hq]; exact List.mem_cons_of_mem _ hp)
      · simp only [List.map_append, List.map_cons, List.map_nil, List.sum_append,
          List.sum_cons, List.sum_nil]
        rw [h3, hcnt]
        ring
    | c2 :: rest =>
      rw [engine_step, hq, hs]
      refine ⟨?_, ?_, ?_, hidx, ?_⟩
      · apply hmap1
        simp [hs]
      · intro p hp
        simp only [List.mem_append, List.mem_cons, List.not_mem_nil, or_false] at hp
        rcases hp with hp | hp
        · exact h2 p (by rw [hq]; exact List.mem_cons_of_mem _ hp)
        · rw [hp]
      · simp only [List.map_append, List.map_cons, List.map_nil, List.sum_append,
          List.sum_cons, List.sum_nil]
        rw [h3, hcnt]
        ring
      · intro habs
        exact absurd habs (by simp)

/-- Every oracle trace preserves the loop invariant. -/
theorem engine_run_inv {C : Type} (cl : C → Int) (hl : Int) (orig : List C) :
    ∀ (tr : List Bool) (s : engine_state C), engine_inv cl hl orig s →
      engine_inv cl hl orig (engine_run cl tr s) := by
  intro tr
  induction tr with
  | nil => intro s h; exact h
  | cons b tr ih =>
    intro s h
    rw [engine_run]
    by_cases hq : s.queue.isEmpty
    · rw [if_pos hq]
      exact h
    · rw [if_neg hq]
      cases b
      · exact ih s h
      · exact ih _ (engine_step_inv cl hl orig s h)

/-- When the main loop has drained its future queue, every stream chunk has
been dispatched, in stream order, with chunk_line_start the header line count
plus the preceding chunks' line counts, and line_num the total. -/
theorem engine_run_complete {C : Type} (cl : C → Int) (cap : Nat) (hl : Int)
    (stream : List C) (tr : List Bool) (hcap : 1 ≤ cap)
    (hdone : (engine_run cl tr (engine_init cl cap hl stream)).queue = []) :
    (engine_run cl tr (engine_init cl cap hl stream)).assigned.map Prod.fst =
      stream ∧
    (∀ i : Nat,
      ∀ h : i < (engine_run cl tr (engine_init cl cap hl stream)).assigned.length,
      ((engine_run cl tr (engine_init cl cap hl stream)).assigned.get ⟨i, h⟩).2 =
        hl + ((stream.take i).map cl).sum) ∧
    (engine_run cl tr (engine_init cl cap hl stream)).line_num =
      hl + (stream.map cl).sum := by
  obtain ⟨h1, h2, h3, h4, h5⟩ :=
    engine_run_inv cl hl stream tr _ (engine_init_inv cl cap hl stream hcap)
  have hstream := h5 hdone
  have hmap : (engine_run cl tr (engine_init cl cap hl stream)).assigned.map
      Prod.fst = stream := by
    have hflat := h1
    rw [hdone, hstream] at hflat
    simpa using hflat
  refine ⟨hmap, ?_, ?_⟩
  · intro i h
    rw [h4 i h, hmap]
  · rw [h3, hmap]

/-- C6: chunk_line_start values are assigned monotonically in stream order:
whenever the loop completes (any oracle trace, hence any thread count and any
completion order of the line-count tasks), the i-th chunk read from the
stream is dispatched i-th with chunk_line_start equal to
header.header_line_count plus the line counts of chunks 0..i-1, and
read_body_threads returns the header line count plus the total body line
count. -/
theorem read_body_threads_line_start_monotone {C : Type} (cl : C → Int)
    (cap : Nat) (hl : Int) (stream : List C) (tr : List Bool)
    (hcap : 1 ≤ cap)
    (hdone : (engine_run cl tr (engine_init cl cap hl stream)).queue = []) :
    (engine_run cl tr (engine_init cl cap hl stream)).assigned.map Prod.fst =
      stream ∧
    (∀ i : Nat,
      ∀ h : i < (engine_run cl tr (engine_init cl cap hl stream)).assigned.length,
      ((engine_run cl tr (engine_init cl cap hl stream)).assigned.get ⟨i, h⟩).2 =
        hl + ((stream.take i).map cl).sum) ∧
    (engine_run cl tr (engine_init cl cap hl stream)).line_num =
      hl + (stream.map cl).sum :=
  engine_run_complete cl cap hl stream tr hcap hdone

/-- Witness for read_body_threads_line_start_monotone: two chunks of one and
two lines, header line count 2; the second chunk starts at line 3 and the
run returns 5. -/
theorem read_body_threads_line_start_monotone_witness :
    (engine_run count_lines_spec [true, true]
        (engine_init count_lines_spec 10 2 ["a\n", "b\nc\n"])).assigned.map
      Prod.fst = ["a\n", "b\nc\n"] ∧
    (engine_run count_lines_spec [true, true]
        (engine_init count_lines_spec 10 2 ["a\n", "b\nc\n"])).line_num =
      2 + (["a\n", "b\nc\n"].map count_lines_spec).sum := by
  have h := read_body_threads_line_start_monotone count_lines_spec 10 2
    ["a\n", "b\nc\n"] [true, true] (by decide) (by decide)
  exact ⟨h.1, h.2.2⟩

/-- C1: the array-format dispatch of read_body_threads computes the chunk's
starting position as (body_line % ncols, body_line / ncols); for the 2-by-3
scenario S4 file split so that a chunk starts at body ordinal 2, it hands the
chunk parser (row, col) = (2, 0) — a row index outside the 2-row matrix —
whereas the column-major position required by the spec (and by the parser
contract (ord % nrows, ord / nrows)) is (0, 1). -/
theorem array_dispatch_start_bug :
    array_dispatch_start 2 3 = (2, 0) ∧
    spec_array_start 2 2 = (0, 1) ∧
    array_dispatch_start 2 3 ≠ spec_array_start 2 2 ∧
    ¬((array_dispatch_start 2 3).1 < 2) :=
  ⟨by decide, by decide, by decide, by decide⟩

/-- C3 counterexample: header line count 2; the body chunks are "1.0\n\n"
(two lines, one record — the second line blank) and "2.0\n".  The engine
passes offset 2 to get_chunk_handler for the second chunk although only one
record precedes it; on the same file with the blank line removed the second
chunk gets offset 1.  Blank body lines therefore shift the output positions
of all following chunks. -/
theorem blank_lines_shift_offsets :
    dispatched_offsets (engine_run count_lines_spec [true, true]
      (engine_init count_lines_spec 10 2 ["1.0\n\n", "2.0\n"])) 2 = [0, 2] ∧
    count_records_spec "1.0\n\n" = 1 ∧
    dispatched_offsets (engine_run count_lines_spec [true, true]
      (engine_init count_lines_spec 10 2 ["1.0\n", "2.0\n"])) 2 = [0, 1] ∧
    (2 : Int) ≠ 1 :=
  ⟨by decide, by decide, by decide, by decide⟩

/-- C3 amended: the offset passed to handler.get_chunk_handler for the i-th
dispatched chunk equals the number of lines — blank lines included — of the
chunks before it, not the number of records: blank body lines advance both
the global line number and the offsets of all later chunks. -/
theorem dispatched_offsets_are_line_counts (cap : Nat) (hl : Int)
    (stream : List String) (tr : List Bool) (hcap : 1 ≤ cap)
    (hdone : (engine_run count_lines_spec tr
      (engine_init count_lines_spec cap hl stream)).queue = []) :
    dispatched_offsets (engine_run count_lines_spec tr
        (engine_init count_lines_spec cap hl stream)) hl =
      (List.range stream.length).map
        (fun i => ((stream.take i).map count_lines_spec).sum) := by
  obtain ⟨hmap, hidx, _⟩ :=
    engine_run_complete count_lines_spec cap hl stream tr hcap hdone
  have hlena : (engine_run count_lines_spec tr
      (engine_init count_lines_spec cap hl stream)).assigned.length =
      stream.length := by
    have hlen := congrArg List.length hmap
    simpa using hlen
  apply List.ext_get
  · simp [dispatched_offsets, hlena]
  · intro i h1 h2
    have hi : i < (engine_run count_lines_spec tr
        (engine_init count_lines_spec cap hl stream)).assigned.length := by
      simpa [dispatched_offsets] using h1
    simp only [dispatched_offsets, List.get_map, List.get_range]
    rw [hidx i hi]
    ring

/-- Witness for dispatched_offsets_are_line_counts on a two-chunk body whose
first chunk contains a blank line. -/
theorem dispatched_offsets_are_line_counts_witness :
    dispatched_offsets (engine_run count_lines_spec [true, true]
        (engine_init count_lines_spec 10 2 ["1.0\n\n", "2.0\n"])) 2 =
      (List.range 2).map
        (fun i => (((["1.0\n\n", "2.0\n"] : List String).take i).map
          count_lines_spec).sum) := by
  have h := dispatched_offsets_are_line_counts 10 2 ["1.0\n\n", "2.0\n"]
    [true, true] (by decide) (by decide)
  simpa using h

/-- Marking a line-count task finished does not change the queue length. -/
theorem mark_count_done_length {C : Type} :
    ∀ (i : Nat) (q : List (C × Int × Bool)),
      (mark_count_done i q).length = q.length := by
  intro i q
  induction q generalizing i with
  | nil => cases i <;> rfl
  | cons e rest ih =>
    obtain ⟨c, n, b⟩ := e
    cases i with
    | zero => rfl
    | succ i => simp [mark_count_done, ih]

/-- Marking a line-count task finished does not increase the number of
unfinished line-count tasks. -/
theorem mark_count_done_countP_le {C : Type} :
    ∀ (i : Nat) (q : List (C × Int × Bool)),
      (mark_count_done i q).countP (fun p => !p.2.2) ≤
        q.countP (fun p => !p.2.2) := by
  intro i q
  induction q generalizing i with
  | nil => cases i <;> simp [mark_count_done]
  | cons e rest ih =>
    obtain ⟨c, n, b⟩ := e
    cases i with
    | zero =>
      simp only [mark_count_done, List.countP_cons]
      cases b <;> simp
    | succ i =>
      simp only [mark_count_done, List.countP_cons]
      have := ih i
      omega

/-- Every event preserves the backpressure invariant: at most cap pending
futures, and at most cap + 1 pending pool tasks (a dispatching iteration
starts below cap and submits at most two tasks). -/
theorem engine_pool_step_inv {C : Type} (cl : C → Int) (cap : Nat)
    (s : engine_pool_state C) (e : engine_event)
    (h1 : s.queue.length ≤ cap) (h2 : pool_tasks_total s ≤ cap + 1) :
    (engine_pool_step cl cap s e).queue.length ≤ cap ∧
    pool_tasks_total (engine_pool_step cl cap s e) ≤ cap + 1 := by
  cases e with
  | count_done i =>
    refine ⟨?_, ?_⟩
    · show (mark_count_done i s.queue).length ≤ cap
      rw [mark_count_done_length]
      exact h1
    · show (mark_count_done i s.queue).countP (fun p => !p.2.2) + s.parse_tasks ≤ cap + 1
      have hle := mark_count_done_countP_le i s.queue
      have h2' : s.queue.countP (fun p => !p.2.2) + s.parse_tasks ≤ cap + 1 := h2
      omega
  | parse_done =>
    refine ⟨h1, ?_⟩
    show s.queue.countP (fun p => !p.2.2) + (s.parse_tasks - 1) ≤ cap + 1
    have h2' : s.queue.countP (fun p => !p.2.2) + s.parse_tasks ≤ cap + 1 := h2
    omega
  | loop_iter =>
    match hq : s.queue with
    | [] =>
      simp only [engine_pool_step, hq]
      constructor
      · rw [hq] at h1
        exact h1
      · exact h2
    | (chunk, cnt, ready) :: qrest =>
      by_cases hg : pool_tasks_total s < cap ∧ ready = true
      · have hcount : s.queue.countP (fun p => !p.2.2) =
            qrest.countP (fun p => !p.2.2) := by
          rw [hq, List.countP_cons, hg.2]
          simp
        have hpre : qrest.countP (fun p => !p.2.2) + s.parse_tasks < cap := by
          have hlt := hg.1
          rw [pool_tasks_total, hcount] at hlt
          exact hlt
        have hqlen : qrest.length + 1 = s.queue.length := by rw [hq]; rfl
        simp only [engine_pool_step, hq, if_pos hg]
        cases hs : s.stream with
        | nil =>
          simp only [hs, pool_tasks_total]
          refine ⟨by omega, ?_⟩
          have hgoal : List.countP (fun p : C × Int × Bool => !p.2.2) qrest +
              (s.parse_tasks + 1) ≤ cap + 1 := by omega
          exact hgoal
        | cons c2 rest =>
          simp only [hs, pool_tasks_total, List.length_append, List.length_cons,
            List.length_nil, List.countP_append, List.countP_cons, List.countP_nil,
            Bool.not_false]
          constructor
          · have hgoal : qrest.length + 1 ≤ cap := by omega
            exact hgoal
          · have hgoal : List.countP (fun p : C × Int × Bool => !p.2.2) qrest +
                (0 + 1) + (s.parse_tasks + 1) ≤ cap + 1 := by omega
            exact hgoal
      · simp only [engine_pool_step, hq, if_neg hg]
        constructor
        · rw [hq] at h1
          exact h1
        · exact h2

/-- The backpressure invariant holds along every event trace. -/
theorem engine_pool_run_inv {C : Type} (cl : C → Int) (cap : Nat) :
    ∀ (tr : List engine_event) (s : engine_pool_state C),
      s.queue.length ≤ cap → pool_tasks_total s ≤ cap + 1 →
      (engine_pool_run cl cap tr s).queue.length ≤ cap ∧
      pool_tasks_total (engine_pool_run cl cap tr s) ≤ cap + 1 := by
  intro tr
  induction tr with
  | nil => intro s h1 h2; exact ⟨h1, h2⟩
  | cons e tr ih =>
    intro s h1 h2
    obtain ⟨h1', h2'⟩ := engine_pool_step_inv cl cap s e h1 h2
    exact ih (engine_pool_step cl cap s e) h1' h2'

/-- The seeded state satisfies the backpressure invariant. -/
theorem engine_pool_init_inv {C : Type} (cl : C → Int) (cap : Nat) (hl : Int)
    (stream : List C) :
    (engine_pool_init cl cap hl stream).queue.length ≤ cap ∧
    pool_tasks_total (engine_pool_init cl cap hl stream) ≤ cap + 1 := by
  have hseed := (seed_loop_spec cl cap stream).2.2.1
  have hqlen : (engine_pool_init cl cap hl stream).queue.length =
      (seed_loop cl cap stream).1.length := by
    simp [engine_pool_init]
  refine ⟨by rw [hqlen]; exact hseed, ?_⟩
  show (engine_pool_init cl cap hl stream).queue.countP (fun p => !p.2.2) + 0 ≤ cap + 1
  have hcle := List.countP_le_length
    (p := fun p : C × Int × Bool => !p.2.2)
    (l := (engine_pool_init cl cap hl stream).queue)
  omega

/-- C9 amended: along every event trace (any interleaving of worker
completions with main-loop iterations, hence any thread count), the pending
line-count futures never exceed inflight_count = 10 * num_threads and the
pool's pending task count never exceeds 10 * num_threads + 1 — a dispatching
iteration requires pool.get_tasks_total() < inflight_count and submits at
most two tasks — so the in-flight measure, pending line-count futures plus
pending pool tasks, never exceeds 2 * (10 * num_threads) + 1.  The claimed
bound of 10 * num_threads on that measure does not hold. -/
theorem read_body_threads_inflight_bounds {C : Type} (cl : C → Int)
    (num_threads : Nat) (hl : Int) (stream : List C) (tr : List engine_event) :
    (engine_pool_run cl (inflight_count num_threads) tr
        (engine_pool_init cl (inflight_count num_threads) hl stream)).queue.length ≤
      inflight_count num_threads ∧
    pool_tasks_total (engine_pool_run cl (inflight_count num_threads) tr
        (engine_pool_init cl (inflight_count num_threads) hl stream)) ≤
      inflight_count num_threads + 1 ∧
    inflight_measure (engine_pool_run cl (inflight_count num_threads) tr
        (engine_pool_init cl (inflight_count num_threads) hl stream)) ≤
      2 * inflight_count num_threads + 1 := by
  obtain ⟨hinit1, hinit2⟩ := engine_pool_init_inv cl (inflight_count num_threads) hl stream
  obtain ⟨h1, h2⟩ := engine_pool_run_inv cl (inflight_count num_threads) tr
    (engine_pool_init cl (inflight_count num_threads) hl stream) hinit1 hinit2
  refine ⟨h1, h2, ?_⟩
  rw [inflight_measure]
  omega

/-- C9 counterexample: one thread (cap = 10), a 15-chunk stream.  The
seeding loop fills the future queue with 10 chunks; the workers finish all
ten line counts; five dispatching iterations then each pass the
get_tasks_total < 10 guard, read a replacement chunk and submit two tasks
whose parse halves the workers have not yet finished.  The reached state —
every step obeying the source's guard — has 10 pending futures and 10
pending pool tasks: in-flight measure 20, exceeding the claimed cap of
10 * num_threads = 10. -/
theorem inflight_measure_exceeds_claimed_cap :
    inflight_measure (engine_pool_run count_lines_spec (inflight_count 1)
        [engine_event.count_done 0, engine_event.count_done 1,
         engine_event.count_done 2, engine_event.count_done 3,
         engine_event.count_done 4, engine_event.count_done 5,
         engine_event.count_done 6, engine_event.count_done 7,
         engine_event.count_done 8, engine_event.count_done 9,
         engine_event.loop_iter, engine_event.loop_iter, engine_event.loop_iter,
         engine_event.loop_iter, engine_event.loop_iter]
        (engine_pool_init count_lines_spec (inflight_count 1) 2
          (List.replicate 15 "a\n"))) = 20 ∧
    inflight_count 1 = 10 ∧
    ¬(inflight_measure (engine_pool_run count_lines_spec (inflight_count 1)
        [engine_event.count_done 0, engine_event.count_done 1,
         engine_event.count_done 2, engine_event.count_done 3,
         engine_event.count_done 4, engine_event.count_done 5,
         engine_event.count_done 6, engine_event.count_done 7,
         engine_event.count_done 8, engine_event.count_done 9,
         engine_event.loop_iter, engine_event.loop_iter, engine_event.loop_iter,
         engine_event.loop_iter, engine_event.loop_iter]
        (engine_pool_init count_lines_spec (inflight_count 1) 2
          (List.replicate 15 "a\n"))) ≤ inflight_count 1) :=
  ⟨by decide, by decide, by decide⟩
